import Mathlib

/-!
Verification of `install-edge-webdriver` (src/main.py)

Shallow embedding of the single source file `src/main.py` and proofs about
the claims of its specification.

Conventions of the embedding:

* Pure computations of the script are translated to Lean functions.
* Effectful steps (subprocess probe, HTTP requests, filesystem writes,
  `exit`) are modelled either as oracles passed in as parameters
  (`download : String → Bool` stands for `download_webdriver`, whose body is
  pure I/O), as an explicit event trace (`Event`), or as explicit state
  passing over a small filesystem model (`FS`).
* Fallible Python code is modelled with `Option`/`Except`; an exception that
  the Python code does not catch shows up as an `Except.error` result.
* Python's `re` module `\d` character class is modelled as the decimal
  digits `0`-`9` (the version strings this program handles are ASCII).
-/

/-! ## Section 1: Version Prober (`get_edge_version`, src/main.py lines 19-28)

The Python code runs `microsoft-edge --version`, strips the captured
standard output, and applies `re.search(r"(\d+\.\d+\.\d+\.\d+)", result)`.
We model the command's stdout as the input `String`; the regex search is
embedded by `reSearch`, whose per-position matcher `matchGroups` realizes
the deterministic backtracking semantics of `\d+\.\d+\.\d+\.\d+`:
each `\d+` followed by a dot can only match the maximal digit run (a
shorter run would leave a digit where a dot is required), and the final
`\d+` matches greedily. -/

/-- Match `n` dot-separated groups of digits (`\d+(\.\d+)^(n-1)`) at the
head of `cs`, returning the matched characters.  `matchGroups 4` is the
matcher for `\d+\.\d+\.\d+\.\d+`. -/
def matchGroups : Nat → List Char → Option (List Char)
  | 0, _ => none
  | 1, cs =>
    let d := cs.takeWhile Char.isDigit
    if d.isEmpty then none else some d
  | n + 2, cs =>
    let d := cs.takeWhile Char.isDigit
    if d.isEmpty then none else
      match cs.dropWhile Char.isDigit with
      | c :: r =>
        if c = '.' then (matchGroups (n + 1) r).map (fun m => d ++ '.' :: m)
        else none
      | [] => none

/-- The regex matcher for `\d+\.\d+\.\d+\.\d+` anchored at the head. -/
def matchAt4 (cs : List Char) : Option (List Char) :=
  matchGroups 4 cs

/-- Model of `re.search`: scan positions left to right, return the leftmost match. -/
def reSearch : List Char → Option (List Char)
  | [] => none
  | c :: cs =>
    match matchAt4 (c :: cs) with
    | some m => some m
    | none => reSearch cs

/-- Python `str.strip()`: drop leading and trailing whitespace. -/
def pyStrip (cs : List Char) : List Char :=
  ((cs.dropWhile Char.isWhitespace).reverse.dropWhile Char.isWhitespace).reverse

/-- The function `get_edge_version` (src/main.py lines 19-28), with the stdout of
`microsoft-edge --version` passed in as `output`.  The Python function
strips the output, searches for the version pattern and returns
`match.group(1)` of the first match, or `None`. -/
def get_edge_version (output : String) : Option String :=
  (reSearch (pyStrip output.data)).map (fun cs => String.mk cs)

/-! Specification-side predicates for the prober claims. -/

/-- Predicate: `v` consists of `n` nonempty digit groups separated by dots
(the language of `\d+(\.\d+)^(n-1)`). -/
def IsVersionN : Nat → List Char → Prop
  | 0, _ => False
  | 1, v => v ≠ [] ∧ ∀ c ∈ v, c.isDigit
  | n + 2, v => ∃ d rest, d ≠ [] ∧ (∀ c ∈ d, c.isDigit) ∧
      IsVersionN (n + 1) rest ∧ v = d ++ '.' :: rest

/-- Predicate: `v` matches the four-part dotted numeric pattern `\d+\.\d+\.\d+\.\d+`. -/
def IsVersion (v : List Char) : Prop := IsVersionN 4 v

/-- Predicate: `v` is a prefix of `l`. -/
def PrefixOf (v l : List Char) : Prop := ∃ r, l = v ++ r

/-- Predicate: `v` occurs as a substring of `t` starting at position `i`. -/
def OccursAt (t : List Char) (i : Nat) (v : List Char) : Prop :=
  PrefixOf v (t.drop i)

/-! ### Lemmas about the digit-run scanner -/

theorem takeWhile_append_junk (p : Char → Bool) (x w : List Char)
    (hw : ∀ c ∈ w, ¬ p c) :
    (x ++ w).takeWhile p = x.takeWhile p ∧
      (x ++ w).dropWhile p = x.dropWhile p ++ w := by
  induction x with
  | nil =>
    refine ⟨?_, ?_⟩ <;> cases w with
    | nil => rfl
    | cons c cs => simp [List.takeWhile_cons, List.dropWhile_cons,
        hw c (List.mem_cons_self c cs)]
  | cons a x ih =>
    by_cases h : p a
    · simp [List.takeWhile_cons, List.dropWhile_cons, h, ih.1, ih.2]
    · simp [List.takeWhile_cons, List.dropWhile_cons, h]

theorem digit_run_split (d x : List Char) (hd : ∀ c ∈ d, c.isDigit) :
    (d ++ '.' :: x).takeWhile Char.isDigit = d ∧
      (d ++ '.' :: x).dropWhile Char.isDigit = '.' :: x := by
  have hdot : ('.' : Char).isDigit = false := by decide
  induction d with
  | nil => simp [List.takeWhile_cons, List.dropWhile_cons, hdot]
  | cons a d ih =>
    have ha : a.isDigit := hd a (List.mem_cons_self a d)
    have ih' := ih (fun c hc => hd c (List.mem_cons_of_mem a hc))
    simp [List.takeWhile_cons, List.dropWhile_cons, ha, ih'.1, ih'.2]

theorem prefix_takeWhile (p : Char → Bool) :
    ∀ (v cs : List Char), (∀ c ∈ v, p c) → PrefixOf v cs →
      PrefixOf v (cs.takeWhile p)
  | [], _, _, _ => ⟨_, rfl⟩
  | a :: v, cs, hv, ⟨r, hr⟩ => by
    subst hr
    have ha : p a := hv a (List.mem_cons_self a v)
    have : PrefixOf v ((v ++ r).takeWhile p) :=
      prefix_takeWhile p v (v ++ r)
        (fun c hc => hv c (List.mem_cons_of_mem a hc)) ⟨r, rfl⟩
    rcases this with ⟨r', hr'⟩
    exact ⟨r', by simp [List.takeWhile_cons, ha, hr']⟩

/-! ### Equation lemmas for `matchGroups` -/

theorem matchGroups_empty (n : Nat) (cs : List Char)
    (hd : (cs.takeWhile Char.isDigit).isEmpty) :
    matchGroups (n + 1) cs = none := by
  cases n <;> simp [matchGroups, hd]

theorem matchGroups_two_plus_nil (n : Nat) (cs : List Char)
    (hnil : cs.dropWhile Char.isDigit = []) :
    matchGroups (n + 2) cs = none := by
  simp only [matchGroups]
  by_cases hd : (cs.takeWhile Char.isDigit).isEmpty
  · rw [if_pos hd]
  · rw [if_neg hd, hnil]

theorem matchGroups_two_plus (n : Nat) (cs : List Char) (c : Char)
    (r : List Char) (hd : ¬ (cs.takeWhile Char.isDigit).isEmpty)
    (hdw : cs.dropWhile Char.isDigit = c :: r) :
    matchGroups (n + 2) cs =
      if c = '.' then (matchGroups (n + 1) r).map
        (fun m => cs.takeWhile Char.isDigit ++ '.' :: m)
      else none := by
  simp only [matchGroups]
  rw [if_neg hd, hdw]

theorem matchGroups_cons_not_digit (n : Nat) (c : Char) (cs : List Char)
    (hc : ¬ c.isDigit) : matchGroups (n + 1) (c :: cs) = none :=
  matchGroups_empty n _ (by simp [List.takeWhile_cons, hc])

/-! ### Soundness, completeness and greediness of `matchGroups` -/

theorem matchGroups_sound :
    ∀ (n : Nat) (cs m : List Char), matchGroups (n + 1) cs = some m →
      IsVersionN (n + 1) m ∧ PrefixOf m cs := by
  intro n
  induction n with
  | zero =>
    intro cs m h
    simp only [matchGroups] at h
    by_cases hd : (cs.takeWhile Char.isDigit).isEmpty
    · simp [hd] at h
    · rw [if_neg hd] at h
      cases h
      refine ⟨⟨?_, fun c hc => List.mem_takeWhile_imp hc⟩,
        ⟨cs.dropWhile Char.isDigit, (List.takeWhile_append_dropWhile _ _).symm⟩⟩
      intro hnil
      exact hd (by simp [hnil])
  | succ k ih =>
    intro cs m h
    by_cases hd : (cs.takeWhile Char.isDigit).isEmpty
    · rw [matchGroups_empty (k + 1) cs hd] at h; cases h
    · cases hdw : cs.dropWhile Char.isDigit with
      | nil => rw [matchGroups_two_plus_nil k cs hdw] at h; cases h
      | cons c r =>
        rw [matchGroups_two_plus k cs c r hd hdw] at h
        by_cases hc : c = '.'
        · subst hc
          rw [if_pos rfl] at h
          simp only [Option.map_eq_some'] at h
          rcases h with ⟨m', hm', rfl⟩
          rcases ih r m' hm' with ⟨hv', ⟨rest, hrest⟩⟩
          refine ⟨⟨cs.takeWhile Char.isDigit, m', ?_,
            fun c hc => List.mem_takeWhile_imp hc, hv', rfl⟩, ⟨rest, ?_⟩⟩
          · intro hnil; exact hd (by simp [hnil])
          · calc cs = cs.takeWhile Char.isDigit ++ cs.dropWhile Char.isDigit :=
                  (List.takeWhile_append_dropWhile _ _).symm
              _ = cs.takeWhile Char.isDigit ++ '.' :: (m' ++ rest) := by
                  rw [hdw, hrest]
              _ = (cs.takeWhile Char.isDigit ++ '.' :: m') ++ rest := by
                  simp
        · rw [if_neg hc] at h; cases h

theorem matchGroups_complete :
    ∀ (n : Nat) (v cs : List Char), IsVersionN (n + 1) v → PrefixOf v cs →
      (matchGroups (n + 1) cs).isSome := by
  intro n
  induction n with
  | zero =>
    intro v cs hv ⟨r, hr⟩
    subst hr
    rcases hv with ⟨hne, hdig⟩
    cases v with
    | nil => exact absurd rfl hne
    | cons a v =>
      have ha : a.isDigit := hdig a (List.mem_cons_self a v)
      simp only [matchGroups]
      rw [if_neg ?_]
      · rfl
      · simp [List.takeWhile_cons, ha]
  | succ k ih =>
    intro v cs hv hpre
    rcases hv with ⟨d, rest, hdne, hdig, hrest, rfl⟩
    rcases hpre with ⟨r, rfl⟩
    have harg : (d ++ '.' :: rest) ++ r = d ++ '.' :: (rest ++ r) := by simp
    rw [harg]
    have hsplit := digit_run_split d (rest ++ r) hdig
    rw [matchGroups_two_plus k _ '.' (rest ++ r)
      (by rw [hsplit.1]; simp [hdne]) hsplit.2, if_pos rfl]
    simpa using ih rest (rest ++ r) hrest ⟨r, rfl⟩

theorem matchGroups_greedy :
    ∀ (n : Nat) (v cs m : List Char), IsVersionN (n + 1) v → PrefixOf v cs →
      matchGroups (n + 1) cs = some m → PrefixOf v m := by
  intro n
  induction n with
  | zero =>
    intro v cs m hv hpre h
    simp only [matchGroups] at h
    by_cases hd : (cs.takeWhile Char.isDigit).isEmpty
    · simp [hd] at h
    · rw [if_neg hd] at h
      cases h
      exact prefix_takeWhile Char.isDigit v cs hv.2 hpre
  | succ k ih =>
    intro v cs m hv hpre h
    rcases hv with ⟨d, rest, hdne, hdig, hrest, rfl⟩
    rcases hpre with ⟨r, hr⟩
    rw [List.append_assoc, List.cons_append] at hr
    subst hr
    have hsplit := digit_run_split d (rest ++ r) hdig
    rw [matchGroups_two_plus k _ '.' (rest ++ r)
      (by rw [hsplit.1]; simp [hdne]) hsplit.2, if_pos rfl] at h
    simp only [Option.map_eq_some'] at h
    rcases h with ⟨m', hm', rfl⟩
    rcases ih rest (rest ++ r) m' hrest ⟨r, rfl⟩ hm' with ⟨r', hr'⟩
    rw [hsplit.1]
    exact ⟨r', by simp [hr']⟩

/-! ### Lemmas about `reSearch` (the left-to-right scan of `re.search`) -/

theorem matchAt4_cons_not_digit (c : Char) (cs : List Char)
    (hc : ¬ c.isDigit) : matchAt4 (c :: cs) = none :=
  matchGroups_cons_not_digit 3 c cs hc

theorem reSearch_eq_some (t m : List Char) (h : reSearch t = some m) :
    ∃ i, matchAt4 (t.drop i) = some m ∧
      ∀ j, j < i → matchAt4 (t.drop j) = none := by
  induction t with
  | nil => cases h
  | cons c cs ih =>
    simp only [reSearch] at h
    split at h
    · rename_i m0 hma
      cases h
      exact ⟨0, hma, fun j hj => absurd hj (Nat.not_lt_zero j)⟩
    · rename_i hma
      rcases ih h with ⟨i, h1, h2⟩
      refine ⟨i + 1, h1, fun j hj => ?_⟩
      cases j with
      | zero => exact hma
      | succ j' => exact h2 j' (Nat.lt_of_succ_lt_succ hj)

theorem reSearch_eq_none (t : List Char) (h : reSearch t = none) :
    ∀ i, matchAt4 (t.drop i) = none := by
  induction t with
  | nil => intro i; rw [List.drop_nil]; rfl
  | cons c cs ih =>
    intro i
    simp only [reSearch] at h
    split at h
    · cases h
    · rename_i hma
      cases i with
      | zero => exact hma
      | succ i' => exact ih h i'

theorem reSearch_no_digit (w : List Char) (hw : ∀ c ∈ w, ¬ c.isDigit) :
    reSearch w = none := by
  induction w with
  | nil => rfl
  | cons c cs ih =>
    have h1 : matchAt4 (c :: cs) = none :=
      matchAt4_cons_not_digit c cs (hw c (List.mem_cons_self c cs))
    simp only [reSearch, h1]
    exact ih (fun x hx => hw x (List.mem_cons_of_mem c hx))

theorem reSearch_junk_lead (l r : List Char) (hl : ∀ c ∈ l, ¬ c.isDigit) :
    reSearch (l ++ r) = reSearch r := by
  induction l with
  | nil => rfl
  | cons c cs ih =>
    have h1 : matchAt4 ((c :: cs) ++ r) = none :=
      matchAt4_cons_not_digit c (cs ++ r) (hl c (List.mem_cons_self c cs))
    rw [List.cons_append] at h1 ⊢
    simp only [reSearch, h1]
    exact ih (fun x hx => hl x (List.mem_cons_of_mem c hx))

theorem matchGroups_append_junk :
    ∀ (n : Nat) (x w : List Char), (∀ c ∈ w, ¬ c.isDigit ∧ c ≠ '.') →
      matchGroups (n + 1) (x ++ w) = matchGroups (n + 1) x := by
  intro n
  induction n with
  | zero =>
    intro x w hw
    have htw := takeWhile_append_junk Char.isDigit x w (fun c hc => (hw c hc).1)
    simp only [matchGroups, htw.1]
  | succ k ih =>
    intro x w hw
    have htw := takeWhile_append_junk Char.isDigit x w (fun c hc => (hw c hc).1)
    by_cases hd : (x.takeWhile Char.isDigit).isEmpty
    · rw [matchGroups_empty (k + 1) (x ++ w) (by rw [htw.1]; exact hd),
        matchGroups_empty (k + 1) x hd]
    · cases hdw : x.dropWhile Char.isDigit with
      | nil =>
        rw [matchGroups_two_plus_nil k x hdw]
        cases w with
        | nil =>
          exact matchGroups_two_plus_nil k (x ++ []) (by rw [htw.2, hdw]; rfl)
        | cons c w' =>
          have hc := hw c (List.mem_cons_self c w')
          rw [matchGroups_two_plus k (x ++ c :: w') c w'
            (by rw [htw.1]; exact hd) (by rw [htw.2, hdw]; rfl)]
          rw [if_neg hc.2]
      | cons c r =>
        have hdw' : (x ++ w).dropWhile Char.isDigit = c :: (r ++ w) := by
          rw [htw.2, hdw]; rfl
        rw [matchGroups_two_plus k (x ++ w) c (r ++ w)
            (by rw [htw.1]; exact hd) hdw',
          matchGroups_two_plus k x c r hd hdw]
        by_cases hc : c = '.'
        · rw [if_pos hc, if_pos hc, ih r w hw, htw.1]
        · rw [if_neg hc, if_neg hc]

theorem reSearch_junk_tail (t w : List Char)
    (hw : ∀ c ∈ w, ¬ c.isDigit ∧ c ≠ '.') :
    reSearch (t ++ w) = reSearch t := by
  induction t with
  | nil =>
    rw [List.nil_append]
    exact reSearch_no_digit w (fun c hc => (hw c hc).1)
  | cons c cs ih =>
    rw [List.cons_append]
    simp only [reSearch]
    have hm : matchAt4 (c :: (cs ++ w)) = matchAt4 (c :: cs) := by
      have := matchGroups_append_junk 3 (c :: cs) w hw
      rw [List.cons_append] at this
      exact this
    rw [hm, ih]

/-! ### `str.strip()` does not change the result of the search -/

theorem ws_not_digit {c : Char} (h : c.isWhitespace) : ¬ c.isDigit := by
  have h' : ((c = ' ' ∨ c = '\t') ∨ c = '\r') ∨ c = '\n' := by
    simpa [Char.isWhitespace] using h
  rcases h' with ((h' | h') | h') | h' <;> subst h' <;> decide

theorem ws_not_dot {c : Char} (h : c.isWhitespace) : c ≠ '.' := by
  have h' : ((c = ' ' ∨ c = '\t') ∨ c = '\r') ∨ c = '\n' := by
    simpa [Char.isWhitespace] using h
  rcases h' with ((h' | h') | h') | h' <;> subst h' <;> decide

theorem reSearch_pyStrip (s : List Char) :
    reSearch (pyStrip s) = reSearch s := by
  unfold pyStrip
  set s1 := s.dropWhile Char.isWhitespace with hs1
  have step1 : reSearch s = reSearch s1 := by
    conv_lhs => rw [← List.takeWhile_append_dropWhile Char.isWhitespace s]
    exact reSearch_junk_lead _ _
      (fun c hc => ws_not_digit (List.mem_takeWhile_imp hc))
  have hdecomp : s1 = (s1.reverse.dropWhile Char.isWhitespace).reverse ++
      (s1.reverse.takeWhile Char.isWhitespace).reverse := by
    conv_lhs => rw [← List.reverse_reverse s1,
      ← List.takeWhile_append_dropWhile Char.isWhitespace s1.reverse]
    rw [List.reverse_append]
  have step2 : reSearch s1 =
      reSearch (s1.reverse.dropWhile Char.isWhitespace).reverse := by
    conv_lhs => rw [hdecomp]
    exact reSearch_junk_tail _ _ (fun c hc => by
      have hc' : c.isWhitespace :=
        List.mem_takeWhile_imp (List.mem_reverse.mp hc)
      exact ⟨ws_not_digit hc', ws_not_dot hc'⟩)
  rw [step1, step2]

/-- C3: for every command-output text, if the text contains a substring
matching the four-part dotted numeric pattern, the Version Prober returns a
substring matching the pattern that starts at the first position hosting
any such match, and is the longest match at that position (every match
there is a prefix of it); if the text contains no such substring (including
empty output) the Prober returns `none`.  The embedding is a total
function, so no exception reaches the caller. -/
theorem prober_extracts_first_version (output : String) :
    (∀ v : String, get_edge_version output = some v →
      IsVersion v.data ∧
      ∃ i, OccursAt output.data i v.data ∧
        (∀ j w, j < i → OccursAt output.data j w → IsVersion w → False) ∧
        (∀ w, OccursAt output.data i w → IsVersion w → PrefixOf w v.data)) ∧
    (get_edge_version output = none ↔
      ∀ i w, OccursAt output.data i w → IsVersion w → False) := by
  have hstrip := reSearch_pyStrip output.data
  constructor
  · intro v hv
    unfold get_edge_version at hv
    rw [hstrip] at hv
    simp only [Option.map_eq_some'] at hv
    rcases hv with ⟨m, hm, rfl⟩
    have hdata : (String.mk m).data = m := rfl
    rw [hdata]
    rcases reSearch_eq_some _ _ hm with ⟨i, hi, hlt⟩
    rcases matchGroups_sound 3 _ _ hi with ⟨hver, hpre⟩
    refine ⟨hver, i, hpre, ?_, ?_⟩
    · intro j w hj how hw
      have hS : (matchAt4 (output.data.drop j)).isSome :=
        matchGroups_complete 3 w _ hw how
      rw [hlt j hj] at hS
      simp at hS
    · intro w how hw
      exact matchGroups_greedy 3 w _ m hw how hi
  · constructor
    · intro hnone i w how hw
      unfold get_edge_version at hnone
      rw [hstrip] at hnone
      simp only [Option.map_eq_none'] at hnone
      have hS : (matchAt4 (output.data.drop i)).isSome :=
        matchGroups_complete 3 w _ hw how
      rw [reSearch_eq_none _ hnone i] at hS
      simp at hS
    · intro hno
      unfold get_edge_version
      rw [hstrip]
      cases hm : reSearch output.data with
      | none => rfl
      | some m =>
        exfalso
        rcases reSearch_eq_some _ _ hm with ⟨i, hi, _⟩
        rcases matchGroups_sound 3 _ _ hi with ⟨hver, hpre⟩
        exact hno i m hpre hver

/-- Witness for C3: the theorem applied to the concrete probe output
`"Microsoft Edge 129.0.2792.65"`. -/
theorem prober_extracts_first_version_witness :
    IsVersion ("129.0.2792.65" : String).data ∧
    ∃ i, OccursAt ("Microsoft Edge 129.0.2792.65" : String).data i
        ("129.0.2792.65" : String).data ∧
      (∀ j w, j < i →
        OccursAt ("Microsoft Edge 129.0.2792.65" : String).data j w →
        IsVersion w → False) ∧
      (∀ w, OccursAt ("Microsoft Edge 129.0.2792.65" : String).data i w →
        IsVersion w → PrefixOf w ("129.0.2792.65" : String).data) :=
  (prober_extracts_first_version "Microsoft Edge 129.0.2792.65").1
    "129.0.2792.65" (by decide)

/-! ## Section 2: PATH handling and starting-point selection
(`install_edge_webdriver`, src/main.py lines 90-93 and 105-109)

Line 92 tests `str(install_dir) not in os.environ["PATH"]`: Python's `in`
on strings is plain substring containment.  Lines 106-109 test
`edge_version in available_versions` (list membership by equality) and use
`available_versions.index(edge_version)`, the position of the first
occurrence. -/

/-- Boolean test that `needle` is a prefix of `hay`. -/
def leadsWith : List Char → List Char → Bool
  | [], _ => true
  | _ :: _, [] => false
  | a :: as, b :: bs => a == b && leadsWith as bs

/-- Python substring containment `needle in hay` for strings. -/
def containsSub (hay needle : List Char) : Bool :=
  match hay with
  | [] => needle.isEmpty
  | _ :: t => leadsWith needle hay || containsSub t needle

/-- Predicate: `needle` occurs somewhere inside `hay`. -/
def SubstrOf (needle hay : List Char) : Prop :=
  ∃ l r, hay = l ++ needle ++ r

theorem leadsWith_iff (needle hay : List Char) :
    leadsWith needle hay = true ↔ PrefixOf needle hay := by
  induction needle generalizing hay with
  | nil => simp [leadsWith, PrefixOf]
  | cons a as ih =>
    cases hay with
    | nil =>
      simp only [leadsWith]
      constructor
      · intro h; cases h
      · rintro ⟨r, hr⟩; cases hr
    | cons b bs =>
      simp only [leadsWith, Bool.and_eq_true, beq_iff_eq]
      rw [ih bs]
      constructor
      · rintro ⟨rfl, r, rfl⟩; exact ⟨r, rfl⟩
      · rintro ⟨r, hr⟩
        injection hr with h1 h2
        exact ⟨h1.symm, r, h2⟩
  
theorem containsSub_iff (hay needle : List Char) :
    containsSub hay needle = true ↔ SubstrOf needle hay := by
  induction hay with
  | nil =>
    simp only [containsSub, List.isEmpty_eq_true]
    constructor
    · rintro rfl; exact ⟨[], [], rfl⟩
    · rintro ⟨l, r, hr⟩
      rcases List.append_eq_nil.mp hr.symm with ⟨h1, h2⟩
      rcases List.append_eq_nil.mp h1 with ⟨_, h3⟩
      exact h3
  | cons c t ih =>
    simp only [containsSub, Bool.or_eq_true, leadsWith_iff, ih]
    constructor
    · rintro (⟨r, hr⟩ | ⟨l, r, hr⟩)
      · exact ⟨[], r, by simp [hr]⟩
      · exact ⟨c :: l, r, by simp [hr]⟩
    · rintro ⟨l, r, hr⟩
      cases l with
      | nil => exact Or.inl ⟨r, by simpa using hr⟩
      | cons x l' =>
        injection hr with h1 h2
        exact Or.inr ⟨l', r, h2⟩

/-- The PATH mutation of src/main.py lines 91-93: append `:dir` unless the
directory string already occurs (as a substring) inside PATH. -/
def pathAfter (path installDir : String) : String :=
  if containsSub path.data installDir.data then path
  else path ++ ":" ++ installDir

/-- Starting-point selection of src/main.py lines 105-109. -/
def startIndex (v : String) (avail : List String) : Nat :=
  if avail.contains v then avail.indexOf v else 0

/-- Colon-separated entries of a PATH-like string (specification-side,
used to state that the code's test is not entry membership). -/
def splitChar (sep : Char) : List Char → List (List Char)
  | [] => [[]]
  | c :: rest =>
    let r := splitChar sep rest
    if c == sep then [] :: r
    else
      match r with
      | [] => [[c]]
      | g :: gs => (c :: g) :: gs

/-- The colon-separated entry list of a PATH string. -/
def colonEntries (s : String) : List String :=
  (splitChar ':' s.data).map (fun l => String.mk l)

theorem indexOf_first_occurrence (v : String) :
    ∀ l : List String, v ∈ l →
      l.get? (l.indexOf v) = some v ∧
      ∀ j, j < l.indexOf v → l.get? j ≠ some v := by
  intro l
  induction l with
  | nil => intro h; cases h
  | cons a t ih =>
    intro h
    by_cases hav : a = v
    · subst hav
      have h0 : (a :: t).indexOf a = 0 := by rw [List.indexOf_cons]; simp
      rw [h0]
      exact ⟨rfl, fun j hj => absurd hj (Nat.not_lt_zero j)⟩
    · have hbeq : (a == v) = false := beq_eq_false_iff_ne.mpr hav
      have hidx : (a :: t).indexOf v = t.indexOf v + 1 := by
        rw [List.indexOf_cons, hbeq]
        rfl
      have hmem : v ∈ t := by
        rcases List.mem_cons.mp h with h1 | h1
        · exact absurd h1.symm hav
        · exact h1
      rcases ih hmem with ⟨h1, h2⟩
      rw [hidx]
      constructor
      · exact h1
      · intro j hj
        cases j with
        | zero =>
          intro he
          injection he with he
          exact hav he
        | succ j' => exact h2 j' (Nat.lt_of_succ_lt_succ hj)

/-- C10: the check deciding whether to append the install directory to
PATH (src/main.py line 92) is plain substring containment, not membership
in the colon-separated entry list: whenever the directory string occurs
anywhere inside PATH the value is left unchanged, otherwise `:dir` is
appended; in particular `/home/u/bin` inside `/home/u/binx` suppresses the
append even though it is not a PATH entry. -/
theorem path_check_is_substring_containment :
    (∀ path dir : String, SubstrOf dir.data path.data →
      pathAfter path dir = path) ∧
    (∀ path dir : String, ¬ SubstrOf dir.data path.data →
      pathAfter path dir = path ++ ":" ++ dir) ∧
    pathAfter "/home/u/binx" "/home/u/bin" = "/home/u/binx" ∧
    "/home/u/bin" ∉ colonEntries "/home/u/binx" := by
  refine ⟨?_, ?_, ?_, ?_⟩
  · intro path dir h
    unfold pathAfter
    rw [if_pos ((containsSub_iff _ _).mpr h)]
  · intro path dir h
    unfold pathAfter
    rw [if_neg (fun hc => h ((containsSub_iff _ _).mp hc))]
  · decide
  · decide

/-- Witness for C10: both directions at concrete PATH values. -/
theorem path_check_is_substring_containment_witness :
    pathAfter "/home/u/binx" "/home/u/bin" = "/home/u/binx" ∧
    pathAfter "/a" "/b" = "/a" ++ ":" ++ "/b" :=
  ⟨path_check_is_substring_containment.1 "/home/u/binx" "/home/u/bin"
      ⟨[], ['x'], by decide⟩,
   path_check_is_substring_containment.2.1 "/a" "/b"
      (fun hsub => absurd ((containsSub_iff _ _).mpr hsub) (by decide))⟩

/-- C2: iteration starts at the position of the first verbatim occurrence
of the detected version in the fetched index, and at position 0 when the
version does not occur; only exact string equality is used. -/
theorem start_index_selection (v : String) (avail : List String) :
    (v ∈ avail →
      avail.get? (startIndex v avail) = some v ∧
      ∀ j, j < startIndex v avail → avail.get? j ≠ some v) ∧
    (v ∉ avail → startIndex v avail = 0) := by
  constructor
  · intro h
    unfold startIndex
    rw [if_pos (List.elem_iff.mpr h)]
    exact indexOf_first_occurrence v avail h
  · intro h
    unfold startIndex
    rw [if_neg (fun hc => h (List.elem_iff.mp hc))]

/-- Witness for C2: a present version starts at its position, an absent
one at 0. -/
theorem start_index_selection_witness :
    ["119.0.0.0", "120.0.0.0"].get?
        (startIndex "120.0.0.0" ["119.0.0.0", "120.0.0.0"]) =
      some "120.0.0.0" ∧
    startIndex "999.0.0.0" ["119.0.0.0", "120.0.0.0"] = 0 :=
  ⟨((start_index_selection "120.0.0.0" ["119.0.0.0", "120.0.0.0"]).1
      (by decide)).1,
   (start_index_selection "999.0.0.0" ["119.0.0.0", "120.0.0.0"]).2
      (by decide)⟩

/-! ## Section 3: Orchestrator (`install_edge_webdriver`, src/main.py
lines 90-121, plus the `__main__` block, lines 124-133)

The orchestrator is modelled as the trace of its observable actions.
`probeResult` stands for the value of `get_edge_version()`, `avail` for
the list returned by `get_available_versions()`, `download` for the
success oracle of `download_webdriver` (a network call writing the zip to
the working directory) and `installOk` for whether `install_webdriver`
completes without logging an internal error (its Python body catches every
exception, so the loop never observes an install failure).  `exit 1`
models Python's `exit(1)`; the trailing `exit 0` models the interpreter
falling off the end of the script. -/

/-- Observable actions of one run of the script. -/
inductive Event where
  | pathAppend (dir : String)
  | probe
  | fetchIndex
  | download (version : String) (ok : Bool)
  | install (version : String) (ok : Bool)
  | logInfo (msg : String)
  | logError (msg : String)
  | exitCode (code : Nat)
deriving DecidableEq

/-- The `for version in available_versions[start_index:] ... else` loop
(src/main.py lines 111-121): stop at the first successful download, then
install once and break; when no download succeeds, the `else:` arm logs
the failure message. -/
def tryLoop (download installOk : String → Bool) : List String → List Event
  | [] =>
    [Event.logError "Failed to download and install Edge WebDriver. Please check the available versions and try again."]
  | v :: rest =>
    if download v then
      [Event.download v true,
       Event.logInfo ("Downloaded Edge WebDriver version: " ++ v),
       Event.logInfo "Installing Edge WebDriver...",
       Event.install v (installOk v),
       Event.logInfo "Edge WebDriver installed successfully!"]
    else
      Event.download v false :: tryLoop download installOk rest

/-- The function `install_edge_webdriver` (src/main.py lines 90-121) as an event
trace, including the interpreter's normal exit after the call returns.
`path` is the value of `os.environ["PATH"]` on entry. -/
def install_edge_webdriver (path installDir : String)
    (probeResult : Option String) (avail : List String)
    (download installOk : String → Bool) : List Event :=
  (if containsSub path.data installDir.data then []
   else [Event.pathAppend installDir]) ++
  Event.probe ::
  match probeResult with
  | none =>
    [Event.logError "Microsoft Edge is not installed or the version could not be determined.",
     Event.exitCode 1]
  | some v =>
    Event.logInfo ("Detected Microsoft Edge version: " ++ v) ::
    Event.logInfo "Downloading matching Edge WebDriver..." ::
    Event.fetchIndex ::
    (tryLoop download installOk (avail.drop (startIndex v avail)) ++
      [Event.exitCode 0])

/-- Versions for which a download attempt is made, in trace order. -/
def downloadsOf (t : List Event) : List String :=
  t.filterMap (fun e =>
    match e with
    | Event.download v _ => some v
    | _ => none)

/-- Versions for which the install step is invoked, in trace order. -/
def installsOf (t : List Event) : List String :=
  t.filterMap (fun e =>
    match e with
    | Event.install v _ => some v
    | _ => none)

/-- Events that perform a network request (the index fetch and each
download attempt). -/
def isNetworkEvent (e : Event) : Bool :=
  match e with
  | Event.fetchIndex => true
  | Event.download _ _ => true
  | _ => false

/-- Events that modify the filesystem (each download writes the archive
to the working directory; the install step extracts/moves/symlinks). -/
def isFsWriteEvent (e : Event) : Bool :=
  match e with
  | Event.download _ _ => true
  | Event.install _ _ => true
  | _ => false

theorem downloadsOf_append (s t : List Event) :
    downloadsOf (s ++ t) = downloadsOf s ++ downloadsOf t := by
  simp [downloadsOf, List.filterMap_append]

theorem installsOf_append (s t : List Event) :
    installsOf (s ++ t) = installsOf s ++ installsOf t := by
  simp [installsOf, List.filterMap_append]

theorem downloadsOf_tryLoop (download installOk : String → Bool)
    (l : List String) :
    downloadsOf (tryLoop download installOk l) =
      l.takeWhile (fun v => !download v) ++
        (l.dropWhile (fun v => !download v)).take 1 := by
  induction l with
  | nil => rfl
  | cons v rest ih =>
    by_cases h : download v
    · simp [tryLoop, h, downloadsOf, List.takeWhile_cons, List.dropWhile_cons]
    · have hstep : tryLoop download installOk (v :: rest) =
          Event.download v false :: tryLoop download installOk rest := by
        simp [tryLoop, h]
      rw [hstep, show downloadsOf (Event.download v false ::
            tryLoop download installOk rest)
          = v :: downloadsOf (tryLoop download installOk rest) from rfl, ih]
      simp [List.takeWhile_cons, List.dropWhile_cons, h]

theorem installsOf_tryLoop (download installOk : String → Bool)
    (l : List String) :
    installsOf (tryLoop download installOk l) =
      (l.dropWhile (fun v => !download v)).take 1 := by
  induction l with
  | nil => rfl
  | cons v rest ih =>
    by_cases h : download v
    · simp [tryLoop, h, installsOf, List.dropWhile_cons]
    · have hstep : tryLoop download installOk (v :: rest) =
          Event.download v false :: tryLoop download installOk rest := by
        simp [tryLoop, h]
      rw [hstep, show installsOf (Event.download v false ::
            tryLoop download installOk rest)
          = installsOf (tryLoop download installOk rest) from rfl, ih]
      simp [List.dropWhile_cons, h]

theorem orchestrator_some_eq (path installDir pv : String)
    (avail : List String) (download installOk : String → Bool) :
    install_edge_webdriver path installDir (some pv) avail download
        installOk =
      (if containsSub path.data installDir.data then []
        else [Event.pathAppend installDir]) ++
      Event.probe ::
      Event.logInfo ("Detected Microsoft Edge version: " ++ pv) ::
      Event.logInfo "Downloading matching Edge WebDriver..." ::
      Event.fetchIndex ::
      (tryLoop download installOk (avail.drop (startIndex pv avail)) ++
        [Event.exitCode 0]) := rfl

theorem downloadsOf_orchestrator (path installDir pv : String)
    (avail : List String) (download installOk : String → Bool) :
    downloadsOf (install_edge_webdriver path installDir (some pv) avail
        download installOk) =
      downloadsOf (tryLoop download installOk
        (avail.drop (startIndex pv avail))) := by
  unfold install_edge_webdriver
  by_cases hp : containsSub path.data installDir.data
  · rw [if_pos hp]
    simp [downloadsOf, List.filterMap_append]
  · rw [if_neg hp]
    simp [downloadsOf, List.filterMap_append]

theorem installsOf_orchestrator (path installDir pv : String)
    (avail : List String) (download installOk : String → Bool) :
    installsOf (install_edge_webdriver path installDir (some pv) avail
        download installOk) =
      installsOf (tryLoop download installOk
        (avail.drop (startIndex pv avail))) := by
  unfold install_edge_webdriver
  by_cases hp : containsSub path.data installDir.data
  · rw [if_pos hp]
    simp [installsOf, List.filterMap_append]
  · rw [if_neg hp]
    simp [installsOf, List.filterMap_append]

/-- C1: for every fetched index list and computed start position, the
orchestrator attempts downloads for the candidates from the start position
onward in list order — the failing prefix followed by at most one success —
and invokes the install step exactly for that first successful version;
the equations hold for every value of the install-outcome oracle
`installOk`, so an install failure neither resumes nor repeats the
iteration. -/
theorem orchestrator_loop_spec (path installDir pv : String)
    (avail : List String) (download installOk : String → Bool) :
    downloadsOf (install_edge_webdriver path installDir (some pv) avail
        download installOk) =
      (avail.drop (startIndex pv avail)).takeWhile (fun v => !download v) ++
        ((avail.drop (startIndex pv avail)).dropWhile
          (fun v => !download v)).take 1 ∧
    installsOf (install_edge_webdriver path installDir (some pv) avail
        download installOk) =
      ((avail.drop (startIndex pv avail)).dropWhile
        (fun v => !download v)).take 1 :=
  ⟨(downloadsOf_orchestrator path installDir pv avail download
      installOk).trans (downloadsOf_tryLoop download installOk _),
   (installsOf_orchestrator path installDir pv avail download
      installOk).trans (installsOf_tryLoop download installOk _)⟩

/-- C6: when the Version Prober yields no version, the orchestrator logs a
fatal error and the process stops with exit code 1; the trace contains no
network request and no filesystem write. -/
theorem probe_failure_halts (path installDir : String) (avail : List String)
    (download installOk : String → Bool) :
    (install_edge_webdriver path installDir none avail download
        installOk).filter isNetworkEvent = [] ∧
    (install_edge_webdriver path installDir none avail download
        installOk).filter isFsWriteEvent = [] ∧
    (install_edge_webdriver path installDir none avail download
        installOk).getLast? = some (Event.exitCode 1) ∧
    Event.logError "Microsoft Edge is not installed or the version could not be determined." ∈
      install_edge_webdriver path installDir none avail download installOk := by
  unfold install_edge_webdriver
  by_cases hp : containsSub path.data installDir.data
  · rw [if_pos hp]
    exact ⟨rfl, rfl, rfl, by simp⟩
  · rw [if_neg hp]
    exact ⟨rfl, rfl, rfl, by simp⟩

theorem tryLoop_all_fail (download installOk : String → Bool)
    (l : List String) (hfail : ∀ v ∈ l, download v = false) :
    tryLoop download installOk l =
      l.map (fun v => Event.download v false) ++
        [Event.logError "Failed to download and install Edge WebDriver. Please check the available versions and try again."] := by
  induction l with
  | nil => rfl
  | cons v rest ih =>
    have hv : download v = false := hfail v (List.mem_cons_self v rest)
    simp only [tryLoop, hv, Bool.false_eq_true, if_false, List.map_cons,
      List.cons_append]
    rw [ih (fun x hx => hfail x (List.mem_cons_of_mem v hx))]

/-- C7: when no candidate download succeeds (including the empty-index
case), the orchestrator logs the advisory failure message and the process
then exits normally with code 0; no install is invoked. -/
theorem exhaustion_soft_failure (path installDir pv : String)
    (avail : List String) (download installOk : String → Bool)
    (hfail : ∀ v ∈ avail.drop (startIndex pv avail), download v = false) :
    (∃ pre, install_edge_webdriver path installDir (some pv) avail download
        installOk =
      pre ++ [Event.logError "Failed to download and install Edge WebDriver. Please check the available versions and try again.",
        Event.exitCode 0]) ∧
    installsOf (install_edge_webdriver path installDir (some pv) avail
      download installOk) = [] := by
  constructor
  · refine ⟨(if containsSub path.data installDir.data then []
        else [Event.pathAppend installDir]) ++
      Event.probe ::
      Event.logInfo ("Detected Microsoft Edge version: " ++ pv) ::
      Event.logInfo "Downloading matching Edge WebDriver..." ::
      Event.fetchIndex ::
      (avail.drop (startIndex pv avail)).map
        (fun v => Event.download v false), ?_⟩
    rw [orchestrator_some_eq path installDir pv avail download installOk,
      tryLoop_all_fail download installOk _ hfail]
    simp
  · rw [installsOf_orchestrator path installDir pv avail download installOk,
      installsOf_tryLoop download installOk]
    have hnil : (avail.drop (startIndex pv avail)).dropWhile
        (fun v => !download v) = [] := by
      rw [List.dropWhile_eq_nil_iff]
      intro v hv
      simp [hfail v hv]
    rw [hnil]
    rfl

/-- Witness for C7: concrete run in which the single candidate fails to
download. -/
theorem exhaustion_soft_failure_witness :
    (∃ pre, install_edge_webdriver "" "/d" (some "1.0.0.0") ["2.0.0.0"]
        (fun _ => false) (fun _ => false) =
      pre ++ [Event.logError "Failed to download and install Edge WebDriver. Please check the available versions and try again.",
        Event.exitCode 0]) ∧
    installsOf (install_edge_webdriver "" "/d" (some "1.0.0.0") ["2.0.0.0"]
      (fun _ => false) (fun _ => false)) = [] :=
  exhaustion_soft_failure "" "/d" "1.0.0.0" ["2.0.0.0"]
    (fun _ => false) (fun _ => false) (fun _ _ => rfl)

/-! ## Section 4: Remote Index Fetcher (`get_available_versions`,
src/main.py lines 72-87)

The XML document is modelled as a tree (`Xml`).  `ET.fromstring` is
modelled by a small recursive-descent parser over the subset of XML the
endpoint serves (nested tags, self-closing tags, text content); like the
library function it returns a parse error on input that is not a single
well-formed document.  `response.content.decode("utf-8-sig")` is modelled
at string level: the decoded body with an optional leading byte-order
mark, stripped by `stripBOM`.  The `try` block catches only
`requests.RequestException` (modelled by `ReqError`, covering both
transport errors and `raise_for_status`); every other exception of the
body — `ET.ParseError` and the `AttributeError` raised by `.text.strip`
when a `Name` element has no text — escapes to the caller, modelled by
`PyError` in the `Except` result. -/

/-- An XML element: tag, text before the first child (`None` in
ElementTree when empty), children in document order. -/
inductive Xml where
  | elem (tag : String) (txt : Option String) (children : List Xml)

def Xml.tag : Xml → String
  | .elem t _ _ => t

def Xml.text : Xml → Option String
  | .elem _ s _ => s

def Xml.children : Xml → List Xml
  | .elem _ _ c => c

/-- Document-order (preorder) listing of a forest, each element followed
by its descendants. -/
def preorderList : List Xml → List Xml
  | [] => []
  | Xml.elem t s cs :: rest =>
    Xml.elem t s cs :: (preorderList cs ++ preorderList rest)

/-- Model of `root.findall(".//tag")`: all descendants of `root` with the given
tag, in document order. -/
def findallDesc (root : Xml) (t : String) : List Xml :=
  (preorderList root.children).filter (fun e => e.tag == t)

/-- Model of `element.find(tag)`: the first direct child with the given tag. -/
def findChild (e : Xml) (t : String) : Option Xml :=
  e.children.find? (fun c => c.tag == t)

/-- Python `str.strip("/")`: remove leading and trailing `/` characters. -/
def stripSlash (s : String) : String :=
  String.mk (((s.data.dropWhile (fun c => c == '/')).reverse.dropWhile
    (fun c => c == '/')).reverse)

/-- Errors raised by `requests` (transport failures and
`raise_for_status`), all subclasses of `requests.RequestException`. -/
inductive ReqError where
  | requestException (msg : String)
deriving DecidableEq

/-- Exceptions of the fetcher body that are not `RequestException` and
therefore escape the `except` clause. -/
inductive PyError where
  | parseError (msg : String)
  | attributeError
deriving DecidableEq

/-- Characters allowed in a tag name by the model parser. -/
def nameChar (c : Char) : Bool :=
  c.isAlphanum || c == '_' || c == '-' || c == '.' || c == ':'

/-- Parse a sequence of sibling elements (skipping character data between
them) until end of input or a closing tag.  Fuel-indexed; `parseXML`
supplies enough fuel for any input. -/
def parseNodes : Nat → List Char → Except String (List Xml × List Char)
  | 0, _ => .error "out of fuel"
  | fuel + 1, input =>
    match input.dropWhile (fun c => c ≠ '<') with
    | [] => .ok ([], [])
    | '<' :: '/' :: rest => .ok ([], '<' :: '/' :: rest)
    | '<' :: rest =>
      let name := rest.takeWhile nameChar
      let r1 := rest.dropWhile nameChar
      if name.isEmpty then .error "syntax error: tag name expected"
      else
        match r1 with
        | '/' :: '>' :: r2 =>
          match parseNodes fuel r2 with
          | .error e => .error e
          | .ok (sibs, r3) =>
            .ok (Xml.elem (String.mk name) none [] :: sibs, r3)
        | '>' :: r2 =>
          let txt := r2.takeWhile (fun c => c ≠ '<')
          let r3 := r2.dropWhile (fun c => c ≠ '<')
          match parseNodes fuel r3 with
          | .error e => .error e
          | .ok (children, r4) =>
            match r4 with
            | '<' :: '/' :: r5 =>
              let cname := r5.takeWhile nameChar
              let r6 := r5.dropWhile nameChar
              if cname = name then
                match r6 with
                | '>' :: r7 =>
                  match parseNodes fuel r7 with
                  | .error e => .error e
                  | .ok (sibs, r8) =>
                    .ok (Xml.elem (String.mk name)
                      (if txt.isEmpty then none else some (String.mk txt))
                      children :: sibs, r8)
                | _ => .error "syntax error: malformed closing tag"
              else .error "mismatched tag"
            | _ => .error "no closing tag"
        | _ => .error "syntax error: malformed tag"
    | _ :: _ => .error "syntax error"

/-- Model of `ET.fromstring`: parse a string as a single XML document. -/
def parseXML (s : String) : Except String Xml :=
  match parseNodes (s.data.length + 1) s.data with
  | .error e => .error e
  | .ok ([root], rest) =>
    if rest.isEmpty then .ok root else .error "junk after document element"
  | .ok ([], _) => .error "no element found"
  | .ok (_ :: _ :: _, _) => .error "junk after document element"

/-- Model of `decode("utf-8-sig")` at string level: strip one leading byte-order
mark if present. -/
def stripBOM (s : String) : String :=
  match s.data with
  | '\uFEFF' :: rest => String.mk rest
  | _ => s

/-- The list comprehension of src/main.py lines 79-83: for each
`BlobPrefix` element with a `Name` child, `name.text.strip("/")`; a
`Name` child whose text is `None` raises `AttributeError`. -/
def extractVersions : List Xml → Except PyError (List String)
  | [] => .ok []
  | p :: rest =>
    match findChild p "Name" with
    | none => extractVersions rest
    | some n =>
      match n.text with
      | none => .error PyError.attributeError
      | some s =>
        match extractVersions rest with
        | .error e => .error e
        | .ok vs => .ok (stripSlash s :: vs)

/-- The function `get_available_versions` (src/main.py lines 72-87), with the outcome
of `requests.get` + `raise_for_status` + decoding passed in as `fetch`.
The `except requests.RequestException` clause turns a request error into
`[]`; a parse error inside the `try` block is not caught and escapes. -/
def get_available_versions (fetch : Except ReqError String) :
    Except PyError (List String) :=
  match fetch with
  | .error _ => .ok []
  | .ok raw =>
    match parseXML (stripBOM raw) with
    | .error m => .error (PyError.parseError m)
    | .ok root => extractVersions (findallDesc root "BlobPrefix")

/-! ### Lemmas about `stripSlash` and `extractVersions` -/

theorem dropWhile_of_no_match (p : Char → Bool) (l : List Char)
    (h : ∀ x ∈ l, ¬ p x) : l.dropWhile p = l := by
  cases l with
  | nil => rfl
  | cons a t => simp [List.dropWhile_cons, h a (List.mem_cons_self a t)]

theorem stripSlash_data (l : List Char) (hs : ∀ c ∈ l, c ≠ '/') :
    (((l ++ ['/']).dropWhile (fun c => c == '/')).reverse.dropWhile
      (fun c => c == '/')).reverse = l := by
  cases l with
  | nil => rfl
  | cons c cs =>
    have hc : (c == '/') = false := by simp [hs c (List.mem_cons_self c cs)]
    have h1 : ((c :: cs) ++ ['/']).dropWhile (fun x => x == '/') =
        (c :: cs) ++ ['/'] := by
      simp [List.dropWhile_cons, hc]
    rw [h1]
    have h2 : ((c :: cs) ++ ['/']).reverse = '/' :: (c :: cs).reverse := by
      simp
    rw [h2, List.dropWhile_cons,
      if_pos (by decide : (('/' : Char) == '/') = true),
      dropWhile_of_no_match _ _
        (fun x hx => by simp [hs x (List.mem_reverse.mp hx)]),
      List.reverse_reverse]

theorem stripSlash_append_slash (v : String) (hs : ∀ c ∈ v.data, c ≠ '/') :
    stripSlash (v ++ "/") = v := by
  unfold stripSlash
  have hdata : (v ++ "/").data = v.data ++ ['/'] := by
    rw [String.data_append]
  rw [hdata, stripSlash_data v.data hs]

theorem extractVersions_of_names :
    ∀ (ps : List Xml) (vs : List String),
      ps.map (fun p => (findChild p "Name").map Xml.text) =
        vs.map (fun v => some (some (v ++ "/"))) →
      (∀ v ∈ vs, ∀ c ∈ v.data, c ≠ '/') →
      extractVersions ps = .ok vs := by
  intro ps
  induction ps with
  | nil =>
    intro vs h _
    cases vs with
    | nil => rfl
    | cons v vs => cases h
  | cons p ps ih =>
    intro vs h hs
    cases vs with
    | nil => cases h
    | cons v vs =>
      simp only [List.map_cons] at h
      injection h with h1 h2
      cases hfc : findChild p "Name" with
      | none => rw [hfc] at h1; cases h1
      | some n =>
        rw [hfc] at h1
        simp only [Option.map_some'] at h1
        injection h1 with h1
        have hrec := ih vs h2 (fun x hx => hs x (List.mem_cons_of_mem v hx))
        simp only [extractVersions, hfc, h1, hrec]
        rw [stripSlash_append_slash v (hs v (List.mem_cons_self v vs))]

/-- C4: for a fetched body parsing to a document whose `BlobPrefix`
elements each carry a `Name` of the form `vᵢ ++ "/"` (no `/` inside
`vᵢ`), the fetcher returns exactly those names with the trailing path
separator stripped, in document order. -/
theorem fetcher_extracts_names (body : String) (root : Xml)
    (vs : List String)
    (hparse : parseXML (stripBOM body) = Except.ok root)
    (hnames : (findallDesc root "BlobPrefix").map
        (fun p => (findChild p "Name").map Xml.text) =
      vs.map (fun v => some (some (v ++ "/"))))
    (hslash : ∀ v ∈ vs, ∀ c ∈ v.data, c ≠ '/') :
    get_available_versions (Except.ok body) = Except.ok vs := by
  have hdef : get_available_versions (Except.ok body) =
      (match parseXML (stripBOM body) with
       | .error m => Except.error (PyError.parseError m)
       | .ok root => extractVersions (findallDesc root "BlobPrefix")) := rfl
  rw [hdef, hparse]
  exact extractVersions_of_names _ vs hnames hslash

/-- Witness for C4: a two-element listing document. -/
theorem fetcher_extracts_names_witness :
    get_available_versions (Except.ok
      "<E><BlobPrefix><Name>129.0.0.0/</Name></BlobPrefix><BlobPrefix><Name>130.0.0.0/</Name></BlobPrefix></E>") =
      Except.ok ["129.0.0.0", "130.0.0.0"] :=
  fetcher_extracts_names
    "<E><BlobPrefix><Name>129.0.0.0/</Name></BlobPrefix><BlobPrefix><Name>130.0.0.0/</Name></BlobPrefix></E>"
    (Xml.elem "E" none
      [Xml.elem "BlobPrefix" none [Xml.elem "Name" (some "129.0.0.0/") []],
       Xml.elem "BlobPrefix" none [Xml.elem "Name" (some "130.0.0.0/") []]])
    ["129.0.0.0", "130.0.0.0"]
    rfl
    (by simp [findallDesc, preorderList, findChild, Xml.tag, Xml.children,
      Xml.text])
    (by decide)

/-- Counterexample for C5: a successful fetch whose body is not XML makes
the fetcher raise (`ET.ParseError` is not a `requests.RequestException`,
so the `except` clause at src/main.py line 85 does not catch it) instead
of returning the empty list. -/
theorem fetcher_parse_error_escapes :
    get_available_versions (Except.ok "not xml") =
      Except.error (PyError.parseError "no element found") := rfl

/-- C5 amended: a network/HTTP error during the fetch is caught, logged
and yields the empty list, but an XML parse error on the response body is
not caught and propagates to the caller. -/
theorem fetcher_error_handling_amended :
    (∀ e : ReqError, get_available_versions (Except.error e) =
      Except.ok []) ∧
    (∀ (raw : String) (m : String), parseXML (stripBOM raw) =
        Except.error m →
      get_available_versions (Except.ok raw) =
        Except.error (PyError.parseError m)) := by
  constructor
  · intro e
    rfl
  · intro raw m h
    have hdef : get_available_versions (Except.ok raw) =
        (match parseXML (stripBOM raw) with
         | .error m => Except.error (PyError.parseError m)
         | .ok root => extractVersions (findallDesc root "BlobPrefix")) := rfl
    rw [hdef, h]

/-- Witness for C5 (amended): both arms at concrete inputs. -/
theorem fetcher_error_handling_amended_witness :
    get_available_versions (Except.error
        (ReqError.requestException "connection refused")) = Except.ok [] ∧
    get_available_versions (Except.ok "not xml") =
      Except.error (PyError.parseError "no element found") :=
  ⟨fetcher_error_handling_amended.1 (ReqError.requestException
      "connection refused"),
   fetcher_error_handling_amended.2 "not xml" "no element found" rfl⟩

/-- C9: prefixing a byte-order mark to a response body does not change
the fetcher's result (the body is decoded with BOM stripping before the
XML parse). -/
theorem bom_invariance (d : String) (h : d.data.head? ≠ some '﻿') :
    get_available_versions (Except.ok ("﻿" ++ d)) =
      get_available_versions (Except.ok d) := by
  have hdef : ∀ s : String, get_available_versions (Except.ok s) =
      (match parseXML (stripBOM s) with
       | .error m => Except.error (PyError.parseError m)
       | .ok root => extractVersions (findallDesc root "BlobPrefix")) :=
    fun _ => rfl
  have h1 : stripBOM ("﻿" ++ d) = d := by
    unfold stripBOM
    have hd2 : ("﻿" ++ d).data = '﻿' :: d.data := by
      rw [String.data_append]
      rfl
    rw [hd2]
    rfl
  have h2 : stripBOM d = d := by
    unfold stripBOM
    split
    · rename_i rest heq
      exact absurd (by rw [heq]; rfl) h
    · rfl
  rw [hdef, hdef, h1, h2]

/-- Witness for C9: a concrete document with and without the BOM. -/
theorem bom_invariance_witness :
    get_available_versions (Except.ok ("﻿" ++ "<E></E>")) =
      get_available_versions (Except.ok "<E></E>") :=
  bom_invariance "<E></E>" (by decide)

/-! ## Section 5: Installer (`install_webdriver`, src/main.py lines 46-69)

The filesystem is an association list from path strings to entries (the
first binding for a path wins; removal drops every binding).  Directories
and permission bits are not modelled (the `mkdir` and `chmod` steps
cannot fail in the scenarios of the claims).  The `try` block catches
every exception, so a failing step returns the filesystem as it is at the
failure point, skipping the remaining steps — exactly the behaviour of
the blanket `except Exception` at src/main.py line 68. -/

/-- A filesystem entry: a regular file or a symbolic link. -/
inductive Entry where
  | file
  | symlink (target : String)
deriving DecidableEq

/-- A filesystem: paths bound to entries, first binding wins. -/
abbrev FS := List (String × Entry)

def fsGet (fs : FS) (p : String) : Option Entry :=
  (fs.find? (fun e => e.1 == p)).map (fun e => e.2)

def fsSet (fs : FS) (p : String) (e : Entry) : FS := (p, e) :: fs

def fsRemove (fs : FS) (p : String) : FS :=
  fs.filter (fun x => !(x.1 == p))

/-- An `os.path.lexists`-like check: the path has an entry, symlink or not;
this is what `Path.symlink_to` tests before raising `FileExistsError`. -/
def lexists (fs : FS) (p : String) : Bool := (fsGet fs p).isSome

/-- Symlink-following existence with fuel (chains are finite in any
reachable filesystem). -/
def pexistsAux (fs : FS) : Nat → String → Bool
  | 0, _ => false
  | n + 1, p =>
    match fsGet fs p with
    | none => false
    | some Entry.file => true
    | some (Entry.symlink t) => pexistsAux fs n t

/-- Model of `Path.exists()` (src/main.py line 61): follows symlinks, so a symlink
whose target is missing reports `False`. -/
def pathExists (fs : FS) (p : String) : Bool :=
  pexistsAux fs (fs.length + 1) p

/-- The function `install_webdriver` (src/main.py lines 46-69): extract the archive to
`/tmp/`, move the binary to `<install_dir>/msedgedriver_<version>`,
remove the fixed-name symlink if `Path.exists()` reports it, create the
new symlink (raising `FileExistsError` if the path is still occupied),
delete the archive.  Any exception is caught by the surrounding `except`,
leaving the filesystem in its partial state. -/
def install_webdriver (installDir version : String) (fs : FS) : FS :=
  if fsGet fs "edgedriver_linux64.zip" ≠ some Entry.file then fs
  else
    let fs1 := fsSet fs "/tmp/msedgedriver" Entry.file
    let target := installDir ++ "/msedgedriver_" ++ version
    let fs2 := fsSet (fsRemove fs1 "/tmp/msedgedriver") target Entry.file
    let link := installDir ++ "/msedgedriver"
    let fs3 := if pathExists fs2 link then fsRemove fs2 link else fs2
    if lexists fs3 link then fs3
    else fsRemove (fsSet fs3 link (Entry.symlink target))
      "edgedriver_linux64.zip"

/-- C8 is a code bug: installing version `2.0.0.0` into a directory whose
fixed-name symlink is dangling (its target `msedgedriver_1.0.0.0` no
longer exists) leaves the old dangling symlink in place — `Path.exists()`
follows the symlink and reports `False`, the `unlink` is skipped, and
`symlink_to` raises `FileExistsError`, caught by the blanket `except` —
so after the install the symlink still points at the missing old binary
(and the archive is not cleaned up), contradicting the claimed
replace-never-dangling invariant. -/
theorem installer_dangling_symlink_bug :
    fsGet (install_webdriver "bin" "2.0.0.0"
        [("edgedriver_linux64.zip", Entry.file),
         ("bin/msedgedriver", Entry.symlink "bin/msedgedriver_1.0.0.0")])
      "bin/msedgedriver" =
      some (Entry.symlink "bin/msedgedriver_1.0.0.0") ∧
    pathExists (install_webdriver "bin" "2.0.0.0"
        [("edgedriver_linux64.zip", Entry.file),
         ("bin/msedgedriver", Entry.symlink "bin/msedgedriver_1.0.0.0")])
      "bin/msedgedriver" = false ∧
    fsGet (install_webdriver "bin" "2.0.0.0"
        [("edgedriver_linux64.zip", Entry.file),
         ("bin/msedgedriver", Entry.symlink "bin/msedgedriver_1.0.0.0")])
      "edgedriver_linux64.zip" = some Entry.file := by
  decide
